import Mathlib

/-!
# TTL cache of the pokedex CLI: shallow embedding and verification

This file embeds the time-bounded response cache of the Go pokedex CLI
(`Cache`, `cacheEntry`, `NewCache`, `Cache.Add`, `Cache.Get`,
`Cache.Reaploop`) and proves the specification's properties about it.

Modelling choices:

* A Go `time.Time` / `time.Duration` is an `Int` (nanoseconds since an
  epoch); `time.Since(t)` at wall-clock instant `now` is `now - t`, and
  the sweep's comparison `time.Since(val.createdAt) > interval` is
  `now - e.createdAt > interval` on `Int`.
* A Go `[]byte` is `Option (List Nat)`: `none` is the `nil` slice and
  `some l` a non-nil slice with contents `l` (the cache is agnostic to
  the bytes, so `Nat` elements suffice).
* The Go `map[string]cacheEntry` is a finite map denoted as the function
  `String → Option cacheEntry`; `m[k] = v` updates the function at `k`,
  `delete(m, k)` sets it to `none` at `k`.
* Every method of `Cache` holds `cache.mutex` for its entire body, so an
  execution of any number of concurrent `Add`/`Get` callers together with
  the `Reaploop` goroutine linearizes into a sequence of atomic
  operations on the shared map.  Concurrency is therefore modelled as an
  arbitrary interleaving: a `List CacheOp` of atomic operations, folded
  over the state by `run`.  The wall-clock times carried by the
  operations are arbitrary integers, so no ordering of timestamps is
  assumed beyond what a theorem's hypotheses state.
-/

/-- Go byte slice: `none` is the `nil` slice, `some l` a slice holding `l`. -/
abbrev GoBytes := Option (List Nat)

/-- `type cacheEntry struct { createdAt time.Time; val []byte }` -/
structure cacheEntry where
  createdAt : Int
  val : GoBytes
deriving DecidableEq, Repr

/-- `type Cache struct { entries map[string]cacheEntry; mutex sync.Mutex }`.
The mutex has no denotational content (it only linearizes the operations,
see the module docstring), so the state is the entry map. -/
structure Cache where
  entries : String → Option cacheEntry

/-- `NewCache`'s initial state: `entries: make(map[string]cacheEntry)`,
an empty map.  (`NewCache` also spawns `Reaploop`; the sweeps it performs
appear as `CacheOp.sweep` operations in a trace.) -/
def NewCache : Cache :=
  ⟨fun _ => none⟩

/-- `func (cache *Cache) Add(key string, val []byte)`:
`cache.entries[key] = cacheEntry{createdAt: time.Now(), val: val}`,
where `now` is the value of `time.Now()` during the call. -/
def Cache.Add (cache : Cache) (key : String) (val : GoBytes) (now : Int) : Cache :=
  ⟨fun k => if k = key then some ⟨now, val⟩ else cache.entries k⟩

/-- `func (cache *Cache) Get(key string) ([]byte, bool)`:
`val, ok := cache.entries[key]; if ok { return val.val, true }; return nil, false`. -/
def Cache.Get (cache : Cache) (key : String) : GoBytes × Bool :=
  match cache.entries key with
  | some val => (val.val, true)
  | none => (none, false)

/-- `Cache.Get` written as an explicit state transformer (state in, state
out), following the Go body line by line: the body reads `cache.entries`
once and performs no write, so the outgoing state is the incoming one. -/
def Cache.GetM (cache : Cache) (key : String) : (GoBytes × Bool) × Cache :=
  match cache.entries key with
  | some val => ((val.val, true), cache)
  | none => ((none, false), cache)

/-- One pass of the body of `Cache.Reaploop`'s `for` loop, performed at
wall-clock instant `now`: under the lock, collect into `toDelete` every
key whose entry satisfies `time.Since(val.createdAt) > interval`, then
delete every collected key.  On the map-as-function denotation the
collect-then-delete pass acts pointwise: a key bound to an entry of age
`> interval` ends up deleted, every other binding is untouched. -/
def Cache.reapSweep (cache : Cache) (interval : Int) (now : Int) : Cache :=
  ⟨fun k =>
    match cache.entries k with
    | some e => if now - e.createdAt > interval then none else some e
    | none => none⟩

/-- One atomic operation on the shared map: a caller's `Add(key, val)`
executed when `time.Now() = time`, or one full sweep pass of `Reaploop`
executed when `time.Now() = time`.  (`Get` is read-only, so it need not
appear in a trace; it is applied to the resulting state.) -/
inductive CacheOp where
  | add (key : String) (val : GoBytes) (time : Int)
  | sweep (time : Int)
deriving DecidableEq, Repr

/-- Effect of one atomic operation on the cache state, for a cache whose
`Reaploop` was started with the given `interval`. -/
def step (interval : Int) (cache : Cache) : CacheOp → Cache
  | .add k v t => cache.Add k v t
  | .sweep t => cache.reapSweep interval t

/-- Effect of a linearized trace of atomic operations. -/
def run (interval : Int) (cache : Cache) (ops : List CacheOp) : Cache :=
  ops.foldl (step interval) cache

/-- Whether an operation is an `Add` under key `k` (a write to `k`). -/
def CacheOp.writesKey (k : String) : CacheOp → Bool
  | .add k' _ _ => k' = k
  | .sweep _ => false

/-! ## Basic lemmas -/

theorem Cache.Add_entries_self (cache : Cache) (key : String) (val : GoBytes) (now : Int) :
    (cache.Add key val now).entries key = some ⟨now, val⟩ := by
  simp [Cache.Add]

theorem Cache.Add_entries_ne (cache : Cache) (key k : String) (val : GoBytes) (now : Int)
    (h : k ≠ key) : (cache.Add key val now).entries k = cache.entries k := by
  simp [Cache.Add, h]

theorem Cache.Get_eq_of_entries (cache : Cache) (key : String) (e : cacheEntry)
    (h : cache.entries key = some e) : cache.Get key = (e.val, true) := by
  simp [Cache.Get, h]

theorem Cache.Get_eq_of_not_entries (cache : Cache) (key : String)
    (h : cache.entries key = none) : cache.Get key = (none, false) := by
  simp [Cache.Get, h]

/-- The sweep never fabricates or mutates an entry: any entry present
after a sweep was present, identical, before it. -/
theorem Cache.reapSweep_entries_some (cache : Cache) (interval now : Int) (k : String)
    (e : cacheEntry) (h : (cache.reapSweep interval now).entries k = some e) :
    cache.entries k = some e := by
  unfold Cache.reapSweep at h
  cases he : cache.entries k with
  | none => simp [he] at h
  | some e' =>
    simp only [he] at h
    by_cases hage : now - e'.createdAt > interval
    · simp [hage] at h
    · simp [hage] at h
      rw [h]

/-- Every entry surviving a sweep at instant `now` has age at most
`interval` at that instant. -/
theorem Cache.reapSweep_age_le (cache : Cache) (interval now : Int) (k : String)
    (e : cacheEntry) (h : (cache.reapSweep interval now).entries k = some e) :
    now - e.createdAt ≤ interval := by
  unfold Cache.reapSweep at h
  cases he : cache.entries k with
  | none => simp [he] at h
  | some e' =>
    simp only [he] at h
    by_cases hage : now - e'.createdAt > interval
    · simp [hage] at h
    · simp [hage] at h
      subst h
      omega

/-- A sweep deletes every entry whose age strictly exceeds `interval`. -/
theorem Cache.reapSweep_entries_stale (cache : Cache) (interval now : Int) (k : String)
    (e : cacheEntry) (he : cache.entries k = some e)
    (hage : now - e.createdAt > interval) :
    (cache.reapSweep interval now).entries k = none := by
  simp [Cache.reapSweep, he, hage]

/-- A sweep keeps, unchanged, every entry whose age is at most `interval`. -/
theorem Cache.reapSweep_entries_fresh (cache : Cache) (interval now : Int) (k : String)
    (e : cacheEntry) (he : cache.entries k = some e)
    (hage : now - e.createdAt ≤ interval) :
    (cache.reapSweep interval now).entries k = some e := by
  simp [Cache.reapSweep, he]
  omega

/-- A step that does not write key `k` cannot create or change the entry
at `k`: if `k` is bound after the step, it was bound, identically, before. -/
theorem step_entries_some (interval : Int) (cache : Cache) (op : CacheOp) (k : String)
    (hop : op.writesKey k = false) (e : cacheEntry)
    (h : (step interval cache op).entries k = some e) :
    cache.entries k = some e := by
  cases op with
  | add k' v t =>
    simp [CacheOp.writesKey, decide_eq_false_iff_not] at hop
    rw [step, Cache.Add_entries_ne cache k' k v t (Ne.symm hop)] at h
    exact h
  | sweep t =>
    exact Cache.reapSweep_entries_some cache interval t k e h

/-- A step that does not write key `k` keeps an absent key absent. -/
theorem step_entries_none (interval : Int) (cache : Cache) (op : CacheOp) (k : String)
    (hop : op.writesKey k = false) (h : cache.entries k = none) :
    (step interval cache op).entries k = none := by
  cases hres : (step interval cache op).entries k with
  | none => rfl
  | some e =>
    rw [step_entries_some interval cache op k hop e hres] at h
    exact absurd h (by simp)

/-- Over a whole trace containing no write to `k`, any entry bound at `k`
at the end was bound, identically, at the start. -/
theorem run_entries_some (interval : Int) (ops : List CacheOp) (cache : Cache) (k : String)
    (hops : ∀ op ∈ ops, op.writesKey k = false) (e : cacheEntry)
    (h : (run interval cache ops).entries k = some e) :
    cache.entries k = some e := by
  induction ops generalizing cache with
  | nil => exact h
  | cons op rest ih =>
    have hstep :=
      ih (step interval cache op) (fun o ho => hops o (List.mem_cons_of_mem op ho)) h
    exact step_entries_some interval cache op k (hops op (List.mem_cons_self op rest)) e hstep

/-- Over a whole trace containing no write to `k`, an absent key stays
absent. -/
theorem run_entries_none (interval : Int) (ops : List CacheOp) (cache : Cache) (k : String)
    (hops : ∀ op ∈ ops, op.writesKey k = false) (h : cache.entries k = none) :
    (run interval cache ops).entries k = none := by
  induction ops generalizing cache with
  | nil => exact h
  | cons op rest ih =>
    exact ih (step interval cache op)
      (fun o ho => hops o (List.mem_cons_of_mem op ho))
      (step_entries_none interval cache op k (hops op (List.mem_cons_self op rest)) h)

theorem run_append (interval : Int) (cache : Cache) (ops₁ ops₂ : List CacheOp) :
    run interval cache (ops₁ ++ ops₂) = run interval (run interval cache ops₁) ops₂ :=
  List.foldl_append _ _ _ _

/-- A sweep keeps an absent key absent. -/
theorem Cache.reapSweep_entries_none (cache : Cache) (interval now : Int) (k : String)
    (h : cache.entries k = none) : (cache.reapSweep interval now).entries k = none := by
  simp [Cache.reapSweep, h]

/-- Decidable bound on an operation's sweep instant: `true` unless the
operation is a sweep occurring strictly after `bound`. -/
def CacheOp.sweepNotAfter (bound : Int) : CacheOp → Bool
  | .sweep t => decide (t ≤ bound)
  | .add _ _ _ => true

/-- An entry stays bound, unchanged, across any trace that never writes
its key and whose sweeps all happen within `interval` of its creation. -/
theorem run_entries_persist (interval : Int) (ops : List CacheOp) (cache : Cache)
    (k : String) (e : cacheEntry)
    (hw : ∀ op ∈ ops, op.writesKey k = false)
    (hs : ∀ op ∈ ops, op.sweepNotAfter (e.createdAt + interval) = true)
    (h : cache.entries k = some e) :
    (run interval cache ops).entries k = some e := by
  induction ops generalizing cache with
  | nil => exact h
  | cons op rest ih =>
    refine ih (step interval cache op)
      (fun o ho => hw o (List.mem_cons_of_mem op ho))
      (fun o ho => hs o (List.mem_cons_of_mem op ho)) ?_
    cases op with
    | add k' v t =>
      have hne : ¬k' = k := by
        simpa [CacheOp.writesKey] using hw _ (List.mem_cons_self _ rest)
      rw [step, Cache.Add_entries_ne cache k' k v t (Ne.symm hne)]
      exact h
    | sweep t =>
      have hb : t ≤ e.createdAt + interval := by
        simpa [CacheOp.sweepNotAfter] using hs _ (List.mem_cons_self _ rest)
      exact Cache.reapSweep_entries_fresh cache interval t k e h (by omega)

/-- A successful `Get` comes from a bound entry. -/
theorem Cache.Get_true_inv (cache : Cache) (k : String) (bv : GoBytes)
    (h : cache.Get k = (bv, true)) :
    ∃ e, cache.entries k = some e ∧ e.val = bv := by
  unfold Cache.Get at h
  cases he : cache.entries k with
  | none => simp [he] at h
  | some e =>
    refine ⟨e, rfl, ?_⟩
    simp only [he] at h
    exact (Prod.mk.injEq _ _ _ _ ▸ h).1

/-- Any entry bound after running a trace was either written by an `add`
of that key and value in the trace, or was already bound at the start. -/
theorem run_entries_sourced (interval : Int) (ops : List CacheOp) (cache : Cache)
    (k : String) (e : cacheEntry)
    (h : (run interval cache ops).entries k = some e) :
    (∃ t, CacheOp.add k e.val t ∈ ops) ∨ cache.entries k = some e := by
  induction ops generalizing cache with
  | nil => exact Or.inr h
  | cons op rest ih =>
    rcases ih (step interval cache op) h with ⟨t, ht⟩ | hstep
    · exact Or.inl ⟨t, List.mem_cons_of_mem op ht⟩
    · cases op with
      | add k' v t =>
        by_cases hk : k = k'
        · subst hk
          rw [step, Cache.Add_entries_self cache k v t] at hstep
          refine Or.inl ⟨t, ?_⟩
          have hval : e.val = v := by
            cases hstep.symm
            rfl
          rw [hval]
          exact List.mem_cons_self _ rest
        · rw [step, Cache.Add_entries_ne cache k' k v t hk] at hstep
          exact Or.inr hstep
      | sweep t =>
        exact Or.inr (Cache.reapSweep_entries_some cache interval t k e hstep)

/-! ## The claims -/

/-- C1: round trip.  For every key `k` and byte payload `v` (the empty
payload `some []` and the `nil` payload included), `Add(k, v)` followed
immediately by `Get(k)`, with no intervening sweep removal, returns
`(v, true)`: the stored bytes come back unchanged and the found flag is
`true`. -/
theorem c1_store_then_lookup_roundtrip (cache : Cache) (k : String) (v : GoBytes)
    (now : Int) : (cache.Add k v now).Get k = (v, true) := by
  simp [Cache.Get, Cache.Add]

/-- C2: one sweep pass.  For every cache state and every sweep pass of
`Reaploop` at instant `now` with interval `ttl`, after the pass every
entry whose age `now - createdAt` exceeded `ttl` has been removed, and
every entry whose age was at most `ttl` is still present with its value
and `createdAt` unchanged. -/
theorem c2_sweep_pass (cache : Cache) (ttl now : Int) (k : String) (e : cacheEntry)
    (he : cache.entries k = some e) :
    (now - e.createdAt > ttl → (cache.reapSweep ttl now).entries k = none) ∧
    (now - e.createdAt ≤ ttl → (cache.reapSweep ttl now).entries k = some e) :=
  ⟨Cache.reapSweep_entries_stale cache ttl now k e he,
   Cache.reapSweep_entries_fresh cache ttl now k e he⟩

theorem c2_sweep_pass_witness :
    ((NewCache.Add "a" (some [1, 2]) 0).reapSweep 5 10).entries "a" = none :=
  (c2_sweep_pass (NewCache.Add "a" (some [1, 2]) 0) 5 10 "a" ⟨0, some [1, 2]⟩
    (by decide)).1 (by decide)

/-- C3: TTL eviction.  For a cache whose `Reaploop` runs with interval
`T`, if `Add(k, v)` happens at `t0`, `k` is never stored again, and the
trace contains a sweep pass at an instant `ts` with `ts - t0 > T` (for
example a sweep of the cycle after `t0 + T`, or any instant once `2T`
has elapsed), then `Get(k)` afterwards returns found `= false`. -/
theorem c3_ttl_eviction (T : Int) (k : String) (v : GoBytes) (t0 ts : Int)
    (c0 : Cache) (pre post : List CacheOp)
    (hpre : ∀ op ∈ pre, op.writesKey k = false)
    (hpost : ∀ op ∈ post, op.writesKey k = false)
    (hts : ts - t0 > T) :
    (run T (c0.Add k v t0) (pre ++ CacheOp.sweep ts :: post)).Get k = (none, false) := by
  rw [show CacheOp.sweep ts :: post = [CacheOp.sweep ts] ++ post from rfl,
    ← List.append_assoc, run_append]
  refine Cache.Get_eq_of_not_entries _ k (run_entries_none T post _ k hpost ?_)
  rw [run_append]
  show ((run T (c0.Add k v t0) pre).reapSweep T ts).entries k = none
  cases hmid : (run T (c0.Add k v t0) pre).entries k with
  | none => exact Cache.reapSweep_entries_none _ T ts k hmid
  | some e =>
    have he : (c0.Add k v t0).entries k = some e :=
      run_entries_some T pre _ k hpre e hmid
    rw [Cache.Add_entries_self c0 k v t0] at he
    cases he.symm
    exact Cache.reapSweep_entries_stale _ T ts k _ hmid hts

theorem c3_ttl_eviction_witness :
    (run 10 (NewCache.Add "a" (some [1]) 0) [CacheOp.sweep 21]).Get "a" = (none, false) := by
  have h := c3_ttl_eviction 10 "a" (some [1]) 0 21 NewCache [] []
    (by simp) (by simp) (by decide)
  simpa using h

/-- C4: no premature eviction (bounded staleness).  First conjunct: with
interval `T`, after `Add(k, v)` at `t0` followed by any trace that never
writes `k` and whose sweep passes all occur at instants at most
`t0 + T`, `Get(k)` still returns `(v, true)` — in particular a lookup at
`t0 + T/2`, all sweeps up to which occur no later than `t0 + T/2`, still
hits.  Second conjunct: every entry present right after a sweep pass at
instant `ts` had age at most `ttl` at that pass; an entry present that
was not inspected by the last sweep can only have been written after it
(C9's sourcing theorem), which is the bounded-staleness invariant. -/
theorem c4_no_premature_eviction :
    (∀ (T : Int) (k : String) (v : GoBytes) (t0 : Int) (c0 : Cache)
       (rest : List CacheOp),
       (∀ op ∈ rest, op.writesKey k = false) →
       (∀ op ∈ rest, op.sweepNotAfter (t0 + T) = true) →
       (run T (c0.Add k v t0) rest).Get k = (v, true))
    ∧ (∀ (cache : Cache) (ttl ts : Int) (k : String) (e : cacheEntry),
       (cache.reapSweep ttl ts).entries k = some e → ts - e.createdAt ≤ ttl) := by
  constructor
  · intro T k v t0 c0 rest hw hs
    refine Cache.Get_eq_of_entries _ k ⟨t0, v⟩
      (run_entries_persist T rest _ k ⟨t0, v⟩ hw hs ?_)
    exact Cache.Add_entries_self c0 k v t0
  · exact Cache.reapSweep_age_le

theorem c4_no_premature_eviction_witness :
    (run 10 (NewCache.Add "a" (some [1, 2, 3]) 0) [CacheOp.sweep 5]).Get "a"
      = (some [1, 2, 3], true) :=
  c4_no_premature_eviction.1 10 "a" (some [1, 2, 3]) 0 NewCache
    [CacheOp.sweep 5] (by decide) (by decide)

/-- C5: overwrite, last write wins.  `Add(k, v1)` then `Add(k, v2)` then
`Get(k)`, with no intervening sweep removal, returns `(v2, true)`,
whatever the two calls' timestamps are (`t2 < t1` included: `Add` never
compares timestamps). -/
theorem c5_overwrite_last_write_wins (cache : Cache) (k : String) (v1 v2 : GoBytes)
    (t1 t2 : Int) : ((cache.Add k v1 t1).Add k v2 t2).Get k = (v2, true) := by
  simp [Cache.Get, Cache.Add]

/-- C6: no synchronous staleness check.  If an entry for `k` exists at
the instant of the call, `Get(k)` returns its stored bytes with found
`= true`; the entry's `createdAt`, the cache's `ttl` and the current
instant are not consulted (`Get` takes no clock at all), so the result
is the same however far the entry's age exceeds `ttl`. -/
theorem c6_lookup_no_staleness_check (cache : Cache) (k : String) (e : cacheEntry)
    (h : cache.entries k = some e) : cache.Get k = (e.val, true) :=
  Cache.Get_eq_of_entries cache k e h

theorem c6_lookup_no_staleness_check_witness :
    (NewCache.Add "a" (some [9]) 0).Get "a" = (some [9], true) :=
  c6_lookup_no_staleness_check (NewCache.Add "a" (some [9]) 0) "a" ⟨0, some [9]⟩
    (by decide)

/-- C7: miss on unknown key, and `Get` cannot fail.  A key never stored
(first conjunct: any lookup on the fresh cache) or whose entry is absent
— removed by the sweep and not re-stored (second conjunct) — yields
found `= false`.  Third conjunct: `Get` is total with exactly the two
normal outcomes, a miss or a hit on the bound entry; there is no error
outcome for any input key. -/
theorem c7_miss_on_unknown_key (cache : Cache) (k : String) :
    NewCache.Get k = (none, false)
    ∧ (cache.entries k = none → cache.Get k = (none, false))
    ∧ (cache.Get k = (none, false)
       ∨ ∃ e, cache.entries k = some e ∧ cache.Get k = (e.val, true)) := by
  refine ⟨rfl, Cache.Get_eq_of_not_entries cache k, ?_⟩
  cases he : cache.entries k with
  | none => exact Or.inl (Cache.Get_eq_of_not_entries cache k he)
  | some e => exact Or.inr ⟨e, rfl, Cache.Get_eq_of_entries cache k e he⟩

theorem c7_miss_on_unknown_key_witness :
    NewCache.Get "never-stored" = (none, false) :=
  (c7_miss_on_unknown_key NewCache "never-stored").2.1 rfl

/-- C8: entry immutability and wholesale replacement.  First conjunct:
the sweep never mutates an entry in place — whatever it leaves bound is
byte-for-byte the entry that was there.  Second conjunct: `Add` replaces
the binding wholesale with a `(value, now)` pair carrying a fresh
`createdAt`.  Third conjunct: consequently a re-`Add` at `t1` of a key
first stored at `t0` survives a sweep at `ts` with `ts - t1 ≤ ttl` even
though the pre-refresh age `ts - t0` exceeds `ttl`: eviction is never
based on the timestamp the entry had before the refresh. -/
theorem c8_entry_immutability :
    (∀ (cache : Cache) (ttl now : Int) (k : String) (e : cacheEntry),
       (cache.reapSweep ttl now).entries k = some e → cache.entries k = some e)
    ∧ (∀ (cache : Cache) (k : String) (v : GoBytes) (now : Int),
       (cache.Add k v now).entries k = some ⟨now, v⟩)
    ∧ (∀ (cache : Cache) (k : String) (v0 v1 : GoBytes) (t0 t1 ttl ts : Int),
       ts - t0 > ttl → ts - t1 ≤ ttl →
       (((cache.Add k v0 t0).Add k v1 t1).reapSweep ttl ts).entries k = some ⟨t1, v1⟩) := by
  refine ⟨Cache.reapSweep_entries_some, Cache.Add_entries_self, ?_⟩
  intro cache k v0 v1 t0 t1 ttl ts _ hfresh
  exact Cache.reapSweep_entries_fresh _ ttl ts k ⟨t1, v1⟩
    (Cache.Add_entries_self _ k v1 t1) hfresh

theorem c8_entry_immutability_witness :
    (((NewCache.Add "a" (some [1]) 0).Add "a" (some [2]) 8).reapSweep 5 10).entries "a"
      = some ⟨8, some [2]⟩ :=
  c8_entry_immutability.2.2 NewCache "a" (some [1]) (some [2]) 0 8 5 10
    (by decide) (by decide)

/-- C9: write atomicity under the mutex-linearized semantics.  Every
`Add`, `Get` and sweep pass holds the cache's mutex for its whole body,
so any concurrent execution linearizes into a trace of atomic operations
(`run`).  First conjunct: no lookup observes a partially written value —
a `Get` that reports found `= true` after any trace returns, bytes
unchanged, the payload of some `add` of that key in the trace (otherwise
it is a miss).  Second conjunct: operations on distinct keys lose no
updates — after concurrent `Add`s of `k1` and `k2` in either
interleaving order, both lookups return their own stored value. -/
theorem c9_concurrent_atomicity :
    (∀ (T : Int) (ops : List CacheOp) (k : String) (bv : GoBytes),
       (run T NewCache ops).Get k = (bv, true) → ∃ t, CacheOp.add k bv t ∈ ops)
    ∧ (∀ (cache : Cache) (k1 k2 : String) (v1 v2 : GoBytes) (t1 t2 : Int),
       k1 ≠ k2 →
       ((cache.Add k1 v1 t1).Add k2 v2 t2).Get k1 = (v1, true)
       ∧ ((cache.Add k1 v1 t1).Add k2 v2 t2).Get k2 = (v2, true)
       ∧ ((cache.Add k2 v2 t2).Add k1 v1 t1).Get k1 = (v1, true)
       ∧ ((cache.Add k2 v2 t2).Add k1 v1 t1).Get k2 = (v2, true)) := by
  constructor
  · intro T ops k bv h
    obtain ⟨e, he, hval⟩ := Cache.Get_true_inv _ k bv h
    rcases run_entries_sourced T ops NewCache k e he with ⟨t, ht⟩ | habs
    · exact ⟨t, hval ▸ ht⟩
    · exact absurd habs (by simp [NewCache])
  · intro cache k1 k2 v1 v2 t1 t2 hne
    refine ⟨?_, ?_, ?_, ?_⟩
    · rw [Cache.Get_eq_of_entries _ k1 ⟨t1, v1⟩ ?_]
      rw [Cache.Add_entries_ne _ k2 k1 v2 t2 hne]
      exact Cache.Add_entries_self cache k1 v1 t1
    · simp [Cache.Get, Cache.Add]
    · simp [Cache.Get, Cache.Add]
    · rw [Cache.Get_eq_of_entries _ k2 ⟨t2, v2⟩ ?_]
      rw [Cache.Add_entries_ne _ k1 k2 v1 t1 (Ne.symm hne)]
      exact Cache.Add_entries_self cache k2 v2 t2

theorem c9_concurrent_atomicity_witness :
    ((NewCache.Add "a" (some [1]) 0).Add "b" (some [2]) 1).Get "a" = (some [1], true) :=
  (c9_concurrent_atomicity.2 NewCache "a" "b" (some [1]) (some [2]) 0 1 (by decide)).1

/-- C10: `Get` is read-only.  For every cache state and every key (the
empty string included), the state-transformer rendering of the Go body,
`GetM`, returns the entry map exactly as it was — no insertion, deletion
or modification — its result component agrees with the pure `Get`, and
on a miss the returned byte payload is the `nil` slice. -/
theorem c10_get_readonly (cache : Cache) (k : String) :
    (cache.GetM k).2 = cache
    ∧ (cache.GetM k).1 = cache.Get k
    ∧ (cache.entries k = none → (cache.GetM k).1 = (none, false)) := by
  unfold Cache.GetM Cache.Get
  cases he : cache.entries k with
  | none => exact ⟨rfl, rfl, fun _ => rfl⟩
  | some e => exact ⟨rfl, rfl, fun h => Option.noConfusion h⟩

theorem c10_get_readonly_witness :
    (NewCache.GetM "").2 = NewCache ∧ (NewCache.GetM "").1 = (none, false) :=
  ⟨(c10_get_readonly NewCache "").1, (c10_get_readonly NewCache "").2.2 rfl⟩
